import Mathlib

/-!
Verification of the proglog storage core (store, index, segment, log).

The Go source is shallowly embedded: files and memory maps are lists of
bytes (Nat values below 256), machine integers are Nat with explicit
modular reduction at the points where Go converts or wraps, and fallible
operations return Option values or an explicit error flag. Field and
function names follow the Go source where Lean allows it.
-/

namespace Proglog

/-- Big-endian encoding of a 32-bit value, as Go binary.BigEndian.PutUint32.
The input is reduced modulo 2 to the 32 as the Go parameter type uint32 does. -/
def putUint32 (n : Nat) : List Nat :=
  [n / 2 ^ 24 % 256, n / 2 ^ 16 % 256, n / 2 ^ 8 % 256, n % 256]

/-- Big-endian encoding of a 64-bit value, as Go binary.BigEndian.PutUint64. -/
def putUint64 (n : Nat) : List Nat :=
  [n / 2 ^ 56 % 256, n / 2 ^ 48 % 256, n / 2 ^ 40 % 256, n / 2 ^ 32 % 256,
   n / 2 ^ 24 % 256, n / 2 ^ 16 % 256, n / 2 ^ 8 % 256, n % 256]

/-- Big-endian decoding, as Go binary.BigEndian.Uint32 applied to 4 bytes. -/
def toUint32 (bs : List Nat) : Nat :=
  bs.foldl (fun a b => a * 256 + b) 0

/-- Big-endian decoding, as Go binary.BigEndian.Uint64 applied to 8 bytes. -/
def toUint64 (bs : List Nat) : Nat :=
  bs.foldl (fun a b => a * 256 + b) 0

/-- Reads k bytes starting at byte a, as a Go slice expression m[a : a+k]. -/
def slice (m : List Nat) (a k : Nat) : List Nat :=
  (m.drop a).take k

/-- Overwrites the bytes of m at positions [a, a + bs.length) with bs, the
effect of Go copy into a subslice of a memory map. -/
def setBytes (m : List Nat) (a : Nat) (bs : List Nat) : List Nat :=
  m.take a ++ bs ++ m.drop (a + bs.length)

/-- Index state: the memory-mapped bytes and the logical write cursor,
embedding the Go struct index fields mmap and size (index.go). -/
structure Index where
  mmap : List Nat
  size : Nat
deriving DecidableEq

/-- Embeds index.Write (index.go lines 124 to 134): fails when the map has no
room for a 12-byte entry, otherwise writes the 4-byte relative offset and the
8-byte position at the cursor and advances the cursor. The Bool is true when
the Go method returned a non-nil error; on error the receiver is unchanged. -/
def indexWrite (i : Index) (off pos : Nat) : Index × Bool :=
  if i.mmap.length < i.size + 12 then (i, true)
  else ({ mmap := setBytes i.mmap i.size (putUint32 off ++ putUint64 pos),
          size := i.size + 12 }, false)

/-- Embeds index.Read (index.go lines 94 to 116). Note the source sets the
entry number to uint32(i.size) for every non-negative argument, not to the
argument itself; the embedding reproduces that line faithfully. The minus-one
sentinel takes entry size / 12 - 1; the uint64 subtraction there cannot
underflow in reachable states (size is a positive multiple of 12), and when
0 < size < 12 both the Go code and this Nat translation return the error. -/
def indexRead (i : Index) (inp : Int) : Option (Nat × Nat) :=
  if i.size = 0 then none
  else
    let off : Nat := if inp = -1 then (i.size / 12 - 1) % 2 ^ 32 else i.size % 2 ^ 32
    let pos : Nat := 12 * off
    if i.size < pos + 12 then none
    else some (toUint32 (slice i.mmap pos 4), toUint64 (slice i.mmap (pos + 4) 8))

/-- Embeds newIndex (index.go lines 33 to 56) acting on an existing file: the
logical size is the file length read before truncation, and the map is the
file resized to maxIndexBytes (extended with zero bytes, or cut). -/
def openIndex (file : List Nat) (maxIndexBytes : Nat) : Index :=
  { mmap := file.take maxIndexBytes ++ List.replicate (maxIndexBytes - file.length) 0,
    size := file.length }

/-- An index over a fresh empty file preallocated to cap bytes, the state
newIndex builds when the segment files did not exist yet. -/
def emptyIndex (cap : Nat) : Index :=
  { mmap := List.replicate cap 0, size := 0 }

/-- Embeds index.Close (index.go lines 64 to 78): the bytes left on disk are
the map truncated to the logical size. -/
def indexCloseFile (i : Index) : List Nat :=
  i.mmap.take i.size

/-- Writes a list of entries in order, stopping at the first failure, as the
sequential index.Write calls a segment performs. -/
def writeAll : Index → List (Nat × Nat) → Index × Bool
  | i, [] => (i, false)
  | i, e :: es =>
    match indexWrite i e.1 e.2 with
    | (j, false) => writeAll j es
    | (j, true) => (j, true)

/-- Store state: the file bytes (flushed and buffered bytes merged, since
every read path flushes first) and the size cursor (store source, struct
store). The invariant size equals the file length holds in every reachable
state. -/
structure Store where
  file : List Nat
  size : Nat
deriving DecidableEq

/-- Embeds store.Append: records the current size as the position, appends an
8-byte big-endian length prefix and the payload, and advances size by
8 + payload length. Returns bytes written, position, and the new state; the
Go errors are I O failures that the file model cannot produce. -/
def storeAppend (s : Store) (p : List Nat) : Nat × Nat × Store :=
  (8 + p.length, s.size,
   { file := s.file ++ putUint64 p.length ++ p, size := s.size + (8 + p.length) })

/-- Embeds store.Read: reads the 8-byte length at pos, then that many bytes
at pos + 8. The bounds checks model the end-of-file errors of File.ReadAt. -/
def storeRead (s : Store) (pos : Nat) : Option (List Nat) :=
  if pos + 8 ≤ s.file.length then
    let len := toUint64 (slice s.file pos 8)
    if pos + 8 + len ≤ s.file.length then some (slice s.file (pos + 8) len)
    else none
  else none

/-- Modelled from the spec: the record type api.Record of this repository is
not under src (only its callers are). Per the data model a record is an
opaque byte payload plus its assigned 64-bit offset. -/
structure Record where
  value : List Nat
  offset : Nat
deriving DecidableEq

/-- Modelled from the spec: proto.Marshal on api.Record, an injective
serialization of the two fields, offset first. The core never inspects the
encoding, it only stores and returns it. -/
def marshalRecord (r : Record) : List Nat :=
  putUint64 r.offset ++ r.value

/-- Modelled from the spec: proto.Unmarshal, the inverse of marshalRecord on
well-formed bytes. -/
def unmarshalRecord (bs : List Nat) : Record :=
  { value := bs.drop 8, offset := toUint64 (bs.take 8) }

/-- Configuration values used by the core, the Segment fields of the Go
Config struct. -/
structure Config where
  maxStoreBytes : Nat
  maxIndexBytes : Nat
  initialOffset : Nat
deriving DecidableEq

/-- Embeds the defaulting at the top of NewLog: zero caps become 1024. -/
def defaultConfig (c : Config) : Config :=
  { maxStoreBytes := if c.maxStoreBytes = 0 then 1024 else c.maxStoreBytes,
    maxIndexBytes := if c.maxIndexBytes = 0 then 1024 else c.maxIndexBytes,
    initialOffset := c.initialOffset }

/-- Segment state, the Go struct segment: a store, an index, the base and
next offsets, and the configuration. -/
structure Segment where
  store : Store
  index : Index
  baseOffset : Nat
  nextOffset : Nat
  config : Config
deriving DecidableEq

/-- Result of segment.Append: the returned offset, whether the Go method
returned a non-nil error, the new segment state, and the caller record after
the in-place mutation of its Offset field. -/
structure SegAppend where
  offset : Nat
  err : Bool
  seg : Segment
  record : Record
deriving DecidableEq

/-- Embeds segment.Append (segment.go lines 92 to 111): sets the record
Offset field to nextOffset, marshals it, appends the bytes to the store, then
writes the index entry with the relative offset as uint32 (the expression
models the uint64 subtraction wrap followed by the uint32 truncation; the Go
base offset is below 2 to the 64). When the index write fails the source
returns 0 with a nil error and leaves nextOffset unchanged, with the store
already mutated; the embedding reproduces that return faithfully. -/
def segmentAppend (s : Segment) (r : Record) : SegAppend :=
  let cur := s.nextOffset
  let r2 := { r with offset := cur }
  let m := marshalRecord r2
  let apnd := storeAppend s.store m
  let pos := apnd.2.1
  let st2 := apnd.2.2
  match indexWrite s.index ((cur + 2 ^ 64 - s.baseOffset) % 2 ^ 64 % 2 ^ 32) pos with
  | (_, true) => { offset := 0, err := false, seg := { s with store := st2 }, record := r2 }
  | (ix2, false) =>
    { offset := cur, err := false,
      seg := { s with store := st2, index := ix2, nextOffset := s.nextOffset + 1 },
      record := r2 }

/-- Embeds segment.Read (segment.go lines 120 to 139): the argument minus the
base offset wraps as uint64 and is then reinterpreted as a signed int64
before reaching index.Read. -/
def segmentRead (s : Segment) (off : Nat) : Option Record :=
  let reln : Nat := (off + 2 ^ 64 - s.baseOffset) % 2 ^ 64
  let rel : Int := if reln < 2 ^ 63 then (reln : Int) else (reln : Int) - 2 ^ 64
  match indexRead s.index rel with
  | none => none
  | some e =>
    match storeRead s.store e.2 with
    | none => none
    | some bs => some (unmarshalRecord bs)

/-- Embeds segment.IsMaxed: either file has reached its configured cap. -/
def isMaxed (s : Segment) : Bool :=
  decide (s.config.maxStoreBytes ≤ s.store.size) ||
  decide (s.config.maxIndexBytes ≤ s.index.size)

/-- Embeds newSegment (segment.go lines 41 to 81) on given file contents: the
store size is the store file length, the index is opened with preallocation,
and nextOffset comes from probing the last index entry. -/
def openSegment (base : Nat) (storeFile indexFile : List Nat) (c : Config) : Segment :=
  let st : Store := { file := storeFile, size := storeFile.length }
  let ix : Index := openIndex indexFile c.maxIndexBytes
  match indexRead ix (-1) with
  | none => { store := st, index := ix, baseOffset := base, nextOffset := base, config := c }
  | some e =>
    { store := st, index := ix, baseOffset := base, nextOffset := base + e.1 + 1, config := c }

/-- Log state: the ordered segment list and the configuration. The Go active
segment pointer always denotes the last list element, so it is not a separate
field here. -/
structure LogSt where
  segments : List Segment
  config : Config
deriving DecidableEq

/-- Embeds Log.setup (log.go lines 59 to 98) over the per-base-offset disk
contents (base, store file, index file), already sorted by base offset with
each base listed once, the result of the directory scan after the
skip-every-other deduplication of the doubled file name list. If the
directory held no segment files, one fresh segment at the configured initial
offset is created. -/
def logSetup (disk : List (Nat × List Nat × List Nat)) (c : Config) : LogSt :=
  let segs := disk.map fun d => openSegment d.1 d.2.1 d.2.2 c
  if segs.isEmpty then { segments := [openSegment c.initialOffset [] [] c], config := c }
  else { segments := segs, config := c }

/-- Embeds NewLog: apply the configuration defaults, then set up from disk. -/
def newLog (disk : List (Nat × List Nat × List Nat)) (c : Config) : LogSt :=
  logSetup disk (defaultConfig c)

/-- Embeds Log.Append (log.go lines 110 to 123): append to the active (last)
segment, then roll over to a new segment at offset plus one when the active
segment is maxed. The source maps a non-nil segment error to a nil-error
return of offset 0 (line 115); segment errors are themselves swallowed, so
the error flag here is false on every reachable path. A rollover opens fresh
empty files. -/
def logAppend (l : LogSt) (r : Record) : Nat × Bool × LogSt :=
  match l.segments.getLast? with
  | none => (0, true, l)
  | some act =>
    let res := segmentAppend act r
    let segs := l.segments.dropLast ++ [res.seg]
    if isMaxed res.seg then
      (res.offset, false,
       { l with segments := segs ++ [openSegment (res.offset + 1) [] [] l.config] })
    else (res.offset, false, { l with segments := segs })

/-- Embeds Log.Read (log.go lines 135 to 151): find the first segment whose
half-open offset range contains the argument; none found is the offset out of
range error. The second guard of the source is kept although it is implied by
the search condition. -/
def logRead (l : LogSt) (off : Nat) : Option Record :=
  match l.segments.find? (fun s => decide (s.baseOffset ≤ off) && decide (off < s.nextOffset)) with
  | none => none
  | some s => if s.nextOffset ≤ off then none else segmentRead s off

/-- Embeds Log.HighestOffset (log.go lines 203 to 213). The Go code indexes
the last segment directly and would fault on an empty list; setup guarantees
nonemptiness, and the none branch is the unreachable default. -/
def highestOffset (l : LogSt) : Nat :=
  match l.segments.getLast? with
  | none => 0
  | some s => if s.nextOffset = 0 then 0 else s.nextOffset - 1

/-- Embeds Log.Truncate (log.go lines 221 to 237): keep, in order, exactly
the segments whose nextOffset exceeds lowest plus one. The operand lowest + 1
is computed in uint64 and wraps to 0 when the caller passes
lowest = 2 to the 64 minus 1; the modular reduction models that wrap. The
removed segments are closed and their files deleted, which has no
representation in this state model. -/
def logTruncate (l : LogSt) (lowest : Nat) : LogSt :=
  { l with segments :=
      l.segments.filter fun s => !decide (s.nextOffset ≤ (lowest + 1) % 2 ^ 64) }

theorem putUint32_length (n : Nat) : (putUint32 n).length = 4 := rfl

theorem putUint64_length (n : Nat) : (putUint64 n).length = 8 := rfl

theorem toUint32_putUint32 (n : Nat) : toUint32 (putUint32 n) = n % 2 ^ 32 := by
  simp only [toUint32, putUint32, List.foldl]
  omega

theorem toUint64_putUint64 (n : Nat) : toUint64 (putUint64 n) = n % 2 ^ 64 := by
  simp only [toUint64, putUint64, List.foldl]
  omega

theorem length_setBytes (m bs : List Nat) (a : Nat) (h : a + bs.length ≤ m.length) :
    (setBytes m a bs).length = m.length := by
  simp only [setBytes, List.length_append, List.length_take, List.length_drop]
  omega

theorem slice_length (m : List Nat) (a k : Nat) (h : a + k ≤ m.length) :
    (slice m a k).length = k := by
  simp only [slice, List.length_take, List.length_drop]
  omega

/-- Reading a slice entirely inside the overwritten region returns the
corresponding slice of the written bytes. -/
theorem slice_setBytes_inside (m bs : List Nat) (a j k : Nat)
    (hm : a + bs.length ≤ m.length) (hjk : j + k ≤ bs.length) :
    slice (setBytes m a bs) (a + j) k = slice bs j k := by
  have hta : (m.take a).length = a := by
    simp only [List.length_take]
    omega
  simp only [slice, setBytes]
  rw [List.take_drop, List.take_drop]
  rw [List.append_assoc, List.take_append_eq_append_take, hta]
  rw [List.take_take]
  have h1 : (a + j + k) ⊓ a = a := by omega
  rw [h1]
  have h2 : a + j + k - a = j + k := by omega
  rw [h2]
  rw [List.take_append_of_le_length hjk]
  rw [List.drop_append_eq_append_drop, hta]
  have h3 : (m.take a).drop (a + j) = [] := List.drop_eq_nil_of_le (by omega)
  have h4 : a + j - a = j := by omega
  rw [h3, h4, List.nil_append]

/-- Reading a slice entirely below the overwritten region is unchanged. -/
theorem slice_setBytes_before (m bs : List Nat) (a j k : Nat)
    (hm : a + bs.length ≤ m.length) (hjk : j + k ≤ a) :
    slice (setBytes m a bs) j k = slice m j k := by
  have hta : (m.take a).length = a := by
    simp only [List.length_take]
    omega
  simp only [slice, setBytes]
  rw [List.take_drop, List.take_drop]
  congr 1
  rw [List.append_assoc, List.take_append_of_le_length (by omega)]
  rw [List.take_take]
  have h1 : (j + k) ⊓ a = j + k := by omega
  rw [h1]

/-- Reading a slice inside the left part of an append ignores the right part. -/
theorem slice_append_left (x y : List Nat) (a k : Nat) (h : a + k ≤ x.length) :
    slice (x ++ y) a k = slice x a k := by
  simp only [slice]
  rw [List.take_drop, List.take_drop]
  congr 1
  rw [List.take_append_of_le_length (by omega)]

/-- Reading a slice inside a take prefix equals reading the original list. -/
theorem slice_take (m : List Nat) (c a k : Nat) (h : a + k ≤ c) :
    slice (m.take c) a k = slice m a k := by
  simp only [slice]
  rw [List.take_drop, List.take_drop]
  congr 1
  rw [List.take_take]
  have h1 : (a + k) ⊓ c = a + k := by omega
  rw [h1]

theorem entry_bytes_length (off pos : Nat) :
    (putUint32 off ++ putUint64 pos).length = 12 := rfl

/-- C5: for every index with logical size s and mapped length mmap_len,
index.Write(rel_off, pos) fails if and only if mmap_len < s + 12; on failure
the index state (size and mapped bytes) is unchanged, and on success it
writes rel_off big-endian into bytes [s, s+4), pos big-endian into bytes
[s+4, s+12), and increments size by exactly 12. -/
theorem c5_index_write_spec (i : Index) (off pos : Nat) :
    ((indexWrite i off pos).2 = true ↔ i.mmap.length < i.size + 12) ∧
    ((indexWrite i off pos).2 = true → (indexWrite i off pos).1 = i) ∧
    ((indexWrite i off pos).2 = false →
      (indexWrite i off pos).1.size = i.size + 12 ∧
      (indexWrite i off pos).1.mmap.length = i.mmap.length ∧
      slice (indexWrite i off pos).1.mmap i.size 4 = putUint32 off ∧
      slice (indexWrite i off pos).1.mmap (i.size + 4) 8 = putUint64 pos) := by
  by_cases h : i.mmap.length < i.size + 12
  · simp [indexWrite, h]
  · have hle : i.size + 12 ≤ i.mmap.length := Nat.le_of_not_lt h
    have hbs : i.size + (putUint32 off ++ putUint64 pos).length ≤ i.mmap.length := by
      rw [entry_bytes_length]
      omega
    refine ⟨by simp [indexWrite, h], by simp [indexWrite, h], fun _ => ?_⟩
    refine ⟨by simp [indexWrite, h], ?_, ?_, ?_⟩
    · simp only [indexWrite, if_neg h]
      exact length_setBytes _ _ _ hbs
    · simp only [indexWrite, if_neg h]
      have e0 : slice (putUint32 off ++ putUint64 pos) 0 4 = putUint32 off := rfl
      have := slice_setBytes_inside i.mmap (putUint32 off ++ putUint64 pos) i.size 0 4
        hbs (by rw [entry_bytes_length]; omega)
      simpa [e0] using this
    · simp only [indexWrite, if_neg h]
      have e4 : slice (putUint32 off ++ putUint64 pos) 4 8 = putUint64 pos := rfl
      have := slice_setBytes_inside i.mmap (putUint32 off ++ putUint64 pos) i.size 4 8
        hbs (by rw [entry_bytes_length])
      simpa [e4] using this

/-- Witness for C5 at a concrete index: a 24-byte map with cursor 0 accepts
the entry (1, 10), the cursor moves to 12 and the entry bytes are stored. -/
theorem c5_index_write_spec_witness :
    (indexWrite (emptyIndex 24) 1 10).2 = false ∧
    (indexWrite (emptyIndex 24) 1 10).1.size = (emptyIndex 24).size + 12 ∧
    slice (indexWrite (emptyIndex 24) 1 10).1.mmap (emptyIndex 24).size 4 = putUint32 1 ∧
    slice (indexWrite (emptyIndex 24) 1 10).1.mmap ((emptyIndex 24).size + 4) 8 = putUint64 10 :=
  ⟨by decide,
   ((c5_index_write_spec (emptyIndex 24) 1 10).2.2 (by decide)).1,
   ((c5_index_write_spec (emptyIndex 24) 1 10).2.2 (by decide)).2.2.1,
   ((c5_index_write_spec (emptyIndex 24) 1 10).2.2 (by decide)).2.2.2⟩

/-- C2: the claim says index.Read(n) with a non-negative n selects entry n
and succeeds for n below the entry count, while the sentinel -1 selects the
last entry. The code disagrees: index.go line 103 sets the entry number to
uint32(i.size) instead of the argument, so the entry byte position is
12 * size, the bounds check size < 12 * size + 12 always trips, and every
non-negative read returns EndOfData. On an index holding the single entry
(0, 0), Read(0) fails although the test file index_test.go requires it to
succeed; Read(-1) still works. -/
theorem c2_index_read_bug :
    (indexWrite (emptyIndex 24) 0 0).2 = false ∧
    (indexWrite (emptyIndex 24) 0 0).1.size = 12 ∧
    indexRead (indexWrite (emptyIndex 24) 0 0).1 0 = none ∧
    indexRead (indexWrite (emptyIndex 24) 0 0).1 (-1) = some (0, 0) := by
  decide

/-- Configuration of scenario A: default store cap, a 24-byte index file, and
initial offset 0. -/
def cfgA : Config := { maxStoreBytes := 1024, maxIndexBytes := 24, initialOffset := 0 }

/-- A record carrying the payload bytes of the string hi. -/
def recA : Record := { value := [104, 105], offset := 0 }

/-- A fresh log over an empty directory under cfgA. -/
def logA0 : LogSt := newLog [] cfgA

/-- Configuration of scenario B: a 13-byte index file, which accepts one
12-byte entry and then rejects the next one without the segment ever
reporting itself maxed (13 is never reached by the cursor). -/
def cfgB : Config := { maxStoreBytes := 1024, maxIndexBytes := 13, initialOffset := 0 }

/-- A record carrying the single payload byte a. -/
def recB : Record := { value := [97], offset := 0 }

/-- A fresh log over an empty directory under cfgB. -/
def logB0 : LogSt := newLog [] cfgB

/-- The log of scenario B after one append. -/
def logB1 : LogSt := (logAppend logB0 recB).2.2

/-- The active segment of logB1 (its only segment). -/
def segB : Segment := logB1.segments.getD 0 (openSegment 0 [] [] cfgB)

/-- The log of scenario B after two appends. -/
def logB2 : LogSt := (logAppend logB1 recB).2.2

/-- C1: the claim says that after a successful Append returning offset off,
Read(off) returns the appended payload. The code disagrees: because
index.Read (index.go line 103) uses i.size instead of the requested entry for
every non-negative relative offset, segment.Read always fails once data
exists, so Log.Read on the just-appended offset returns the EndOfData error
instead of the record. Concretely, on a fresh log the first Append returns
offset 0 with a nil error, and Read(0) fails. -/
theorem c1_append_then_read_fails :
    (logAppend logA0 recA).1 = 0 ∧
    (logAppend logA0 recA).2.1 = false ∧
    logRead (logAppend logA0 recA).2.2 0 = none := by
  decide

/-- C3: the claim says store and index errors inside segment.Append surface
through Log.Append as a non-nil error. The code disagrees: segment.go line
105 returns (0, nil) when the index write fails, and log.go line 115 likewise
maps a segment error to (0, nil). On a segment whose index has room for no
further entry, the exact index write that Append issues fails, yet both
segment.Append and Log.Append report a nil error and offset 0. -/
theorem c3_error_swallowed :
    (indexWrite segB.index
      ((segB.nextOffset + 2 ^ 64 - segB.baseOffset) % 2 ^ 64 % 2 ^ 32)
      segB.store.size).2 = true ∧
    (segmentAppend segB recB).err = false ∧
    (segmentAppend segB recB).offset = 0 ∧
    (logAppend logB1 recB).2.1 = false ∧
    (logAppend logB1 recB).1 = 0 := by
  decide

/-- C4: the claim says nil-error Append calls return strictly increasing,
gapless offsets. The code disagrees: under cfgB the second Append fails its
index write, segment.go line 105 turns that into (0, nil), and Log.Append
passes (0, nil) on, so two consecutive appends both report success with
offset 0 where the claim requires 0 then 1. -/
theorem c4_offsets_not_increasing :
    (logAppend logB0 recB).1 = 0 ∧
    (logAppend logB0 recB).2.1 = false ∧
    (logAppend logB1 recB).1 = 0 ∧
    (logAppend logB1 recB).2.1 = false := by
  decide

/-- C8: the claim says that after k nil-error appends starting from an empty
log at initial offset B, HighestOffset returns B + k - 1. The code disagrees:
under cfgB both appends report a nil error (the second one silently failed
its index write), yet HighestOffset afterwards is 0 where the claim requires
0 + 2 - 1 = 1. -/
theorem c8_highest_offset_after_appends :
    (logAppend logB0 recB).2.1 = false ∧
    (logAppend logB1 recB).2.1 = false ∧
    highestOffset logB2 = 0 := by
  decide

/-- C6 amended: Log.Truncate(L) retains exactly the segments whose nextOffset
strictly exceeds the uint64 value of L + 1, that is (L + 1) mod 2 to the 64,
keeps them in their original order (the result is a sublist of the previous
segment list), and hence every surviving segment satisfies
nextOffset > (L + 1) mod 2 to the 64. For watermarks below 2 to the 64 minus
1 this threshold equals the claimed L + 1; at L = 2 to the 64 minus 1 it
wraps to 0 and every segment survives. -/
theorem c6_truncate_spec_amended (l : LogSt) (lowest : Nat) :
    List.Sublist (logTruncate l lowest).segments l.segments ∧
    (∀ s : Segment, s ∈ (logTruncate l lowest).segments ↔
      (s ∈ l.segments ∧ (lowest + 1) % 2 ^ 64 < s.nextOffset)) := by
  constructor
  · exact List.filter_sublist _
  · intro s
    simp [logTruncate, List.mem_filter, Nat.not_le]

/-- Configuration of scenario C: index cap 49 admits three entries with the
segment never reporting itself maxed. -/
def cfgC : Config := { maxStoreBytes := 1024, maxIndexBytes := 49, initialOffset := 0 }

/-- The log of scenario C after three appends: one segment with nextOffset 3. -/
def logC : LogSt :=
  (logAppend (logAppend (logAppend (newLog [] cfgC) recB).2.2 recB).2.2 recB).2.2

/-- The only segment of logC. -/
def segC : Segment := logC.segments.getD 0 (openSegment 0 [] [] cfgC)

/-- C6 counterexample: the claim says Truncate(L) removes every segment with
nextOffset at most L + 1 and that every survivor satisfies
nextOffset > L + 1, for every watermark. The code disagrees at the legal
watermark L = 2 to the 64 minus 1: Go computes L + 1 in uint64, which wraps
to 0, so the retention test compares nextOffset against 0 and every nonempty
segment survives, although none satisfies nextOffset > L + 1. On logC (one
segment with nextOffset 3) nothing is removed. -/
theorem c6_truncate_wrap_counterexample :
    (logTruncate logC (2 ^ 64 - 1)).segments = logC.segments ∧
    segC ∈ (logTruncate logC (2 ^ 64 - 1)).segments ∧
    ¬ ((2 ^ 64 - 1) + 1 < segC.nextOffset) := by
  decide

/-- C9 counterexample: the claim says every operation, in particular Truncate
with any watermark, preserves the at-least-one-segment invariant established
by setup. On a log with one segment of nextOffset 3 (reached from setup by
three appends), Truncate(5) removes every segment, leaving none. -/
theorem c9_truncate_can_empty_log :
    logC.segments ≠ [] ∧ (logTruncate logC 5).segments = [] := by
  decide

/-- C9 amended: setup always establishes at least one segment and Append
preserves nonemptiness, but Truncate(L) preserves it exactly when some
segment has nextOffset greater than the uint64 value of L + 1, that is
(L + 1) mod 2 to the 64; for watermarks at or beyond the offsets of every
segment (other than the wrapping L = 2 to the 64 minus 1, where the threshold
becomes 0 and every segment survives) it removes every segment. -/
theorem c9_nonempty_amended :
    (∀ (disk : List (Nat × List Nat × List Nat)) (c : Config),
      (logSetup disk c).segments ≠ []) ∧
    (∀ (l : LogSt) (r : Record), l.segments ≠ [] → (logAppend l r).2.2.segments ≠ []) ∧
    (∀ (l : LogSt) (lowest : Nat),
      ((logTruncate l lowest).segments ≠ [] ↔
        ∃ s ∈ l.segments, (lowest + 1) % 2 ^ 64 < s.nextOffset)) := by
  refine ⟨?_, ?_, ?_⟩
  · intro disk c
    cases disk with
    | nil => simp [logSetup]
    | cons d ds => simp [logSetup]
  · intro l r h
    cases hl : l.segments.getLast? with
    | none => simpa [logAppend, hl] using h
    | some act =>
      by_cases hm : isMaxed (segmentAppend act r).seg
      · simp [logAppend, hl, hm]
      · simp [logAppend, hl, hm]
  · intro l lowest
    constructor
    · intro h
      rcases List.exists_mem_of_ne_nil _ h with ⟨s, hs⟩
      rw [logTruncate] at hs
      simp only [List.mem_filter, Bool.not_eq_true', decide_eq_false_iff_not, Nat.not_le] at hs
      exact ⟨s, hs.1, hs.2⟩
    · rintro ⟨s, hmem, hlt⟩ heq
      have hin : s ∈ (logTruncate l lowest).segments := by
        rw [logTruncate]
        simp only [List.mem_filter, Bool.not_eq_true', decide_eq_false_iff_not, Nat.not_le]
        exact ⟨hmem, hlt⟩
      rw [heq] at hin
      exact absurd hin (List.not_mem_nil s)

/-- Witness for the amended C9: appending to the one-segment logB0 leaves at
least one segment, and Truncate(1) on logC (whose segment has nextOffset 3,
greater than 1 + 1) leaves at least one segment. -/
theorem c9_nonempty_amended_witness :
    (logAppend logB0 recB).2.2.segments ≠ [] ∧ (logTruncate logC 1).segments ≠ [] :=
  ⟨c9_nonempty_amended.2.1 logB0 recB (by decide),
   (c9_nonempty_amended.2.2 logC 1).mpr ⟨segC, by decide, by decide⟩⟩

/-- C10: segment.Append overwrites the Offset field of the caller record with
the assigned offset (the segment nextOffset) before marshalling, and the
bytes persisted in the store are the length-prefixed marshalling of that
updated record; whenever the supplied offset differs from the assigned one
modulo 2 to the 64, the persisted record bytes differ from the marshalling of
the record as supplied. -/
theorem c10_record_mutated (s : Segment) (r : Record)
    (h : r.offset % 2 ^ 64 ≠ s.nextOffset % 2 ^ 64) :
    (segmentAppend s r).record = { r with offset := s.nextOffset } ∧
    (segmentAppend s r).seg.store.file =
      s.store.file ++ putUint64 (marshalRecord { r with offset := s.nextOffset }).length ++
        marshalRecord { r with offset := s.nextOffset } ∧
    marshalRecord { r with offset := s.nextOffset } ≠ marshalRecord r := by
  refine ⟨?_, ?_, ?_⟩
  · simp only [segmentAppend, storeAppend]
    split
    · rfl
    · rfl
  · simp only [segmentAppend, storeAppend]
    split
    · rfl
    · rfl
  · intro heq
    apply h
    have h2 : putUint64 s.nextOffset = putUint64 r.offset :=
      (List.append_inj heq (by simp [putUint64_length])).1
    have h3 := congrArg toUint64 h2
    rw [toUint64_putUint64, toUint64_putUint64] at h3
    exact h3.symm

/-- A fresh segment at base 0 under cfgA, with nextOffset 0. -/
def segD : Segment := openSegment 0 [] [] cfgA

/-- A record supplied with a stale Offset field 5. -/
def recD : Record := { value := [1], offset := 5 }

/-- Witness for C10: appending recD (whose Offset field is 5) to the fresh
segment segD stores the record with Offset rewritten to 0, and the marshalled
bytes differ from the marshalling of recD as supplied. -/
theorem c10_record_mutated_witness :
    (segmentAppend segD recD).record = { value := [1], offset := 0 } ∧
    marshalRecord { value := [1], offset := 0 } ≠ marshalRecord recD :=
  ⟨(c10_record_mutated segD recD (by decide)).1,
   (c10_record_mutated segD recD (by decide)).2.2⟩

/-- Inversion of a successful index write: the room condition held and the
result is the updated index. -/
theorem indexWrite_ok (i i1 : Index) (off pos : Nat)
    (h : indexWrite i off pos = (i1, false)) :
    i.size + 12 ≤ i.mmap.length ∧
    i1 = { mmap := setBytes i.mmap i.size (putUint32 off ++ putUint64 pos),
           size := i.size + 12 } := by
  by_cases hc : i.mmap.length < i.size + 12
  · simp [indexWrite, hc] at h
  · refine ⟨Nat.le_of_not_lt hc, ?_⟩
    simp only [indexWrite, if_neg hc, Prod.mk.injEq] at h
    exact h.1.symm

/-- A run of successful index writes grows the cursor by 12 per entry, keeps
the mapped length, preserves all bytes below the starting cursor, and leaves
the encoded entries at their 12-byte slots. -/
theorem writeAll_ok (es : List (Nat × Nat)) : ∀ (i j : Index),
    i.size ≤ i.mmap.length → writeAll i es = (j, false) →
    j.mmap.length = i.mmap.length ∧
    j.size = i.size + 12 * es.length ∧
    j.size ≤ j.mmap.length ∧
    (∀ a k, a + k ≤ i.size → slice j.mmap a k = slice i.mmap a k) ∧
    (∀ t (ht : t < es.length),
      slice j.mmap (i.size + 12 * t) 4 = putUint32 (es.get ⟨t, ht⟩).1 ∧
      slice j.mmap (i.size + 12 * t + 4) 8 = putUint64 (es.get ⟨t, ht⟩).2) := by
  induction es with
  | nil =>
    intro i j h0 hw
    have hj : i = j := by simpa [writeAll] using hw
    subst hj
    exact ⟨rfl, by simp, h0, fun a k _ => rfl, fun t ht => absurd ht (by simp)⟩
  | cons e es ih =>
    intro i j h0 hw
    rcases hiw : indexWrite i e.1 e.2 with ⟨i1, b⟩
    cases b with
    | true => rw [writeAll, hiw] at hw; simp at hw
    | false =>
      rw [writeAll, hiw] at hw
      obtain ⟨hroom, hi1⟩ := indexWrite_ok i i1 e.1 e.2 hiw
      have hbs : i.size + (putUint32 e.1 ++ putUint64 e.2).length ≤ i.mmap.length := by
        rw [entry_bytes_length]
        omega
      have hlen1 : i1.mmap.length = i.mmap.length := by
        rw [hi1]
        exact length_setBytes _ _ _ hbs
      have hsz1 : i1.size = i.size + 12 := by rw [hi1]
      have h01 : i1.size ≤ i1.mmap.length := by omega
      obtain ⟨ihlen, ihsz, ihle, ihpres, ihent⟩ := ih i1 j h01 hw
      refine ⟨ihlen.trans hlen1, by simp [ihsz, hsz1]; omega, ihle, ?_, ?_⟩
      · intro a k hak
        have h1 : slice j.mmap a k = slice i1.mmap a k := ihpres a k (by omega)
        rw [h1, hi1]
        exact slice_setBytes_before _ _ _ _ _ hbs hak
      · intro t ht
        cases t with
        | zero =>
          have h4 : slice j.mmap i.size 4 = slice i1.mmap i.size 4 :=
            ihpres i.size 4 (by omega)
          have h8 : slice j.mmap (i.size + 4) 8 = slice i1.mmap (i.size + 4) 8 :=
            ihpres (i.size + 4) 8 (by omega)
          constructor
          · rw [Nat.mul_zero, Nat.add_zero, h4, hi1]
            have := slice_setBytes_inside i.mmap (putUint32 e.1 ++ putUint64 e.2) i.size 0 4
              hbs (by rw [entry_bytes_length]; omega)
            simpa using this
          · rw [Nat.mul_zero, Nat.add_zero, h8, hi1]
            have := slice_setBytes_inside i.mmap (putUint32 e.1 ++ putUint64 e.2) i.size 4 8
              hbs (by rw [entry_bytes_length])
            simpa using this
        | succ t1 =>
          have ht1 : t1 < es.length := by simpa using ht
          have harith : i.size + 12 * (t1 + 1) = i1.size + 12 * t1 := by omega
          have hget : (e :: es).get ⟨t1 + 1, ht⟩ = es.get ⟨t1, ht1⟩ := rfl
          rw [hget, harith]
          exact ihent t1 ht1

/-- C7: writing e entries into a fresh index and closing it leaves a file of
exactly 12 times e bytes, and reopening that file under the same cap yields
an index of e entries whose Read(-1) returns the last entry written. The
hypotheses state that every write succeeded (which forces 12 times e to be at
most the cap), that at least one entry was written, and that the entries fit
their uint32 and uint64 fields. -/
theorem c7_close_reopen (es : List (Nat × Nat)) (cap : Nat) (i : Index)
    (hw : writeAll (emptyIndex cap) es = (i, false))
    (hne : es ≠ [])
    (hcount : es.length ≤ 2 ^ 32)
    (hrange : ∀ e ∈ es, e.1 < 2 ^ 32 ∧ e.2 < 2 ^ 64) :
    (indexCloseFile i).length = 12 * es.length ∧
    (openIndex (indexCloseFile i) cap).size = 12 * es.length ∧
    indexRead (openIndex (indexCloseFile i) cap) (-1) = some (es.getLast hne) := by
  have h0 : (emptyIndex cap).size ≤ (emptyIndex cap).mmap.length := by simp [emptyIndex]
  obtain ⟨hlen, hsz, hle, hpres, hent⟩ := writeAll_ok es (emptyIndex cap) i h0 hw
  have hlen2 : i.mmap.length = cap := by simpa [emptyIndex] using hlen
  have hsz2 : i.size = 12 * es.length := by simpa [emptyIndex] using hsz
  have hexp : 12 * es.length ≤ cap := by omega
  have hpos : 1 ≤ es.length := List.length_pos.mpr hne
  have hfl : (indexCloseFile i).length = 12 * es.length := by
    simp only [indexCloseFile, List.length_take]
    omega
  have hmm : (openIndex (indexCloseFile i) cap).mmap =
      indexCloseFile i ++ List.replicate (cap - (indexCloseFile i).length) 0 := by
    simp only [openIndex]
    rw [List.take_of_length_le (by omega)]
  have hsz3 : (openIndex (indexCloseFile i) cap).size = 12 * es.length := by
    simp only [openIndex]
    exact hfl
  refine ⟨hfl, hsz3, ?_⟩
  have hget4 : slice (openIndex (indexCloseFile i) cap).mmap (12 * (es.length - 1)) 4 =
      putUint32 (es.get ⟨es.length - 1, by omega⟩).1 := by
    rw [hmm, slice_append_left _ _ _ _ (by rw [hfl]; omega)]
    simp only [indexCloseFile]
    rw [hsz2, slice_take _ _ _ _ (by omega)]
    have := (hent (es.length - 1) (by omega)).1
    simpa [emptyIndex] using this
  have hget8 : slice (openIndex (indexCloseFile i) cap).mmap (12 * (es.length - 1) + 4) 8 =
      putUint64 (es.get ⟨es.length - 1, by omega⟩).2 := by
    rw [hmm, slice_append_left _ _ _ _ (by rw [hfl]; omega)]
    simp only [indexCloseFile]
    rw [hsz2, slice_take _ _ _ _ (by omega)]
    have := (hent (es.length - 1) (by omega)).2
    simpa [emptyIndex] using this
  have hdiv : 12 * es.length / 12 = es.length := by omega
  have hoff : (12 * es.length / 12 - 1) % 2 ^ 32 = es.length - 1 := by
    rw [hdiv]
    exact Nat.mod_eq_of_lt (by omega)
  have hrng := hrange (es.get ⟨es.length - 1, by omega⟩) (List.get_mem es (es.length - 1) (by omega))
  have hlast : es.getLast hne = es.get ⟨es.length - 1, by omega⟩ := by
    rw [List.getLast_eq_getElem]
    simp [List.get_eq_getElem]
  simp only [indexRead, hsz3, hoff, if_true]
  rw [if_neg (by omega : ¬ (12 * es.length = 0))]
  rw [if_neg (by omega : ¬ (12 * es.length < 12 * (es.length - 1) + 12))]
  rw [hget4, hget8, toUint32_putUint32, toUint64_putUint64]
  rw [Nat.mod_eq_of_lt hrng.1, Nat.mod_eq_of_lt hrng.2, hlast]

/-- The entry list of the index round-trip test: the two entries of the
repository test TestIndex. -/
def esW : List (Nat × Nat) := [(0, 0), (1, 10)]

/-- The index state after writing the two test entries into a fresh 24-byte
index. -/
def idxW : Index := (writeAll (emptyIndex 24) esW).1

/-- Witness for C7 at the concrete test data: both writes succeed, the closed
file holds exactly 24 bytes, and the reopened index reads back (1, 10) as its
last entry. -/
theorem c7_close_reopen_witness :
    (indexCloseFile idxW).length = 24 ∧
    (openIndex (indexCloseFile idxW) 24).size = 24 ∧
    indexRead (openIndex (indexCloseFile idxW) 24) (-1) = some (1, 10) := by
  have h := c7_close_reopen esW 24 idxW (by decide) (by decide) (by decide) (by decide)
  exact ⟨h.1, h.2.1, h.2.2⟩

end Proglog
